import Mathlib

/-!
Verification of the sketchboard.co schedule extraction and merge scripts.

The development shallowly embeds the two extraction scripts
(fetch_sketchboard_drinkdraw.py at the repository root and under scripts/)
and the merger (scripts/merge_csv.py).  Python strings are modelled as
Lean strings; the Python string primitives used by the scripts
(str.lower, str.upper, str.strip, str.split, "sub in s", str.startswith,
"sep".join, str.replace) are given explicit executable models on lists of
characters (ASCII-faithful, which covers every constant the scripts use).
The regular expressions appearing in the scripts are embedded as
deterministic scanning matchers; determinism of each one with respect to
Python's backtracking regex engine is argued in the comment next to it.
HTML parsing (BeautifulSoup) is an external collaborator: an extraction
run is modelled as a function of the list of anchors the parser yields,
each anchor carrying its joined text, its href attribute, and its
parent's block text (None when the anchor is detached).
-/

/- ### Character-level helpers (models of Python primitives) -/

/-- Model of a character of Python whitespace (the ASCII part of `str.split`
whitespace and of the regex class `\s`): space, tab, newline, carriage
return, vertical tab, form feed. -/
def isWsC (c : Char) : Bool :=
  c == ' ' || c == '\t' || c == '\n' || c == '\r' || c == '\x0b' || c == '\x0c'

/-- Model of the regex class `\d` restricted to ASCII (and of
`str.isdigit` on ASCII input). -/
def isDigitC (c : Char) : Bool :=
  48 ≤ c.toNat && c.toNat ≤ 57

/-- ASCII lower-casing of one character, the fragment of `str.lower`
exercised by the scripts. -/
def lowerC (c : Char) : Char :=
  if 65 ≤ c.toNat ∧ c.toNat ≤ 90 then Char.ofNat (c.toNat + 32) else c

/-- ASCII upper-casing of one character, the fragment of `str.upper`
exercised by the scripts. -/
def upperC (c : Char) : Char :=
  if 97 ≤ c.toNat ∧ c.toNat ≤ 122 then Char.ofNat (c.toNat - 32) else c

def lowerL (l : List Char) : List Char := l.map lowerC

/-- Model of `str.lower` on a whole string. -/
def pyLower (s : String) : String := String.mk (lowerL s.data)

/-- `l.isPrefixOf`-based substring test on character lists: the model of
Python's `needle in haystack` for strings. -/
def infixB : List Char → List Char → Bool
  | n, [] => n.isEmpty
  | n, c :: t => n.isPrefixOf (c :: t) || infixB n t

/-- Model of Python's `needle in haystack` on strings. -/
def substrB (needle hay : String) : Bool := infixB needle.data hay.data

/-- Model of Python's `s.startswith(p)`. -/
def startsWithB (p s : String) : Bool := p.data.isPrefixOf s.data

/-- `dropWhile`-based strip of leading and trailing whitespace on a
character list; the model of Python's `str.strip()`. -/
def stripL (l : List Char) : List Char :=
  ((l.dropWhile isWsC).reverse.dropWhile isWsC).reverse

/-- Model of Python's `str.strip()` on strings. -/
def pyStrip (s : String) : String := String.mk (stripL s.data)

theorem length_dropWhile_le (p : Char → Bool) (l : List Char) :
    (l.dropWhile p).length ≤ l.length := by
  induction l with
  | nil => simp
  | cons a t ih =>
    rw [List.dropWhile]
    cases p a
    · simp
    · simpa using Nat.le_succ_of_le ih

/-- Accumulator pass for `pyWords`: `acc` holds the reversed current
word. -/
def pyWordsAux : List Char → List Char → List (List Char)
  | [], acc => if acc.isEmpty then [] else [acc.reverse]
  | c :: cs, acc =>
    if isWsC c then
      if acc.isEmpty then pyWordsAux cs []
      else acc.reverse :: pyWordsAux cs []
    else pyWordsAux cs (c :: acc)

/-- Model of Python's `str.split()` (no separator argument): the list of
maximal runs of non-whitespace characters. -/
def pyWords (l : List Char) : List (List Char) := pyWordsAux l []

/-- Model of `" ".join(s.split())`, the whitespace normalisation used by
the scripts on anchor text and on time strings. -/
def collapseL (l : List Char) : List Char := List.intercalate [' '] (pyWords l)

/-- Whitespace normalisation on strings. -/
def pyCollapse (s : String) : String := String.mk (collapseL s.data)

/-- Numeric value of a run of ASCII digit characters (what
`int`/`strptime` compute from a matched digit group). -/
def natOfDigits (l : List Char) : Nat :=
  l.foldl (fun n c => n * 10 + (c.toNat - 48)) 0

def digitChar (n : Nat) : Char := Char.ofNat (48 + n)

/- ### Basic facts about the helpers -/

theorem infixB_iff (n h : List Char) : infixB n h = true ↔ n <:+: h := by
  induction h with
  | nil =>
    rw [infixB]
    simp [ List.infix_nil, List.isEmpty_iff]
  | cons a t ih =>
    rw [infixB]
    simp only [Bool.or_eq_true, ih, List.isPrefixOf_iff_prefix]
    exact (@List.infix_cons_iff Char n a t).symm

theorem substrB_iff (needle hay : String) :
    substrB needle hay = true ↔ needle.data <:+: hay.data :=
  infixB_iff needle.data hay.data

theorem toNat_of_isWsC {c : Char} (h : isWsC c = true) :
    c.toNat = 32 ∨ c.toNat = 9 ∨ c.toNat = 10 ∨ c.toNat = 13 ∨
      c.toNat = 11 ∨ c.toNat = 12 := by
  simp only [isWsC, Bool.or_eq_true, beq_iff_eq] at h
  obtain ((((h | h) | h) | h) | h) | h := h <;> subst h <;> simp

theorem isWsC_lowerC_self {c : Char} (h : isWsC c = true) : lowerC c = c := by
  have := toNat_of_isWsC h
  unfold lowerC
  rw [if_neg]
  omega

theorem isWsC_of_isDigitC {c : Char} (h : isDigitC c = true) : isWsC c = false := by
  simp only [isDigitC, Bool.and_eq_true, decide_eq_true_eq] at h
  by_contra hw
  have hw' : isWsC c = true := by
    cases hx : isWsC c
    · exact absurd hx hw
    · rfl
  have := toNat_of_isWsC hw'
  omega

/- ### Data model -/

/-- The 12-column event record (one CSV row); the single entity both
pipelines and the merger operate on.  Field order matches the scripts'
HEADERS constant. -/
structure Row where
  date : String
  venue : String
  title : String
  category : String
  event_type : String
  start_time : String
  end_time : String
  price_text : String
  is_museum : String
  museum_name : String
  event_url : String
  notes : String
deriving DecidableEq

/-- One anchor element as surfaced by the HTML parser (the external
collaborator): the anchor's text joined with single spaces
(`a.get_text(" ")`), its href attribute (empty when absent), and its
parent's newline-separated block text (`container.get_text("\n",
strip=True)`), or none when the anchor has no parent. -/
structure Anchor where
  text : String
  href : String
  parent : Option String
deriving DecidableEq

/- ### First-seen de-duplication (the `seen` set loop of both mains and
of the merger) -/

def dedupSeen {α κ : Type} [DecidableEq κ] (f : α → κ) (seen : List κ) :
    List α → List α
  | [] => []
  | x :: xs =>
    if f x ∈ seen then dedupSeen f seen xs
    else x :: dedupSeen f (f x :: seen) xs

/-- Keep only the first-seen element for each key, preserving order: the
model of the `seen = set(); uniq = []` loops. -/
def dedupBy {α κ : Type} [DecidableEq κ] (f : α → κ) (l : List α) : List α :=
  dedupSeen f [] l

theorem dedupSeen_idem {α κ : Type} [DecidableEq κ] (f : α → κ) :
    ∀ (l : List α) (seen : List κ),
      dedupSeen f seen (dedupSeen f seen l) = dedupSeen f seen l := by
  intro l
  induction l with
  | nil => intro seen; rfl
  | cons x xs ih =>
    intro seen
    rw [dedupSeen]
    by_cases hx : f x ∈ seen
    · rw [if_pos hx, ih]
    · rw [if_neg hx, dedupSeen, if_neg hx, ih]

theorem dedupBy_idem {α κ : Type} [DecidableEq κ] (f : α → κ) (l : List α) :
    dedupBy f (dedupBy f l) = dedupBy f l :=
  dedupSeen_idem f l []

theorem mem_of_mem_dedupSeen {α κ : Type} [DecidableEq κ] {f : α → κ} :
    ∀ {l : List α} {seen : List κ} {a : α}, a ∈ dedupSeen f seen l → a ∈ l := by
  intro l
  induction l with
  | nil => intro seen a h; exact absurd h (by simp [dedupSeen])
  | cons x xs ih =>
    intro seen a h
    rw [dedupSeen] at h
    by_cases hx : f x ∈ seen
    · rw [if_pos hx] at h
      exact List.mem_cons_of_mem _ (ih h)
    · rw [if_neg hx] at h
      rcases List.mem_cons.mp h with h | h
      · exact h ▸ List.mem_cons_self _ _
      · exact List.mem_cons_of_mem _ (ih h)

theorem dedupBy_pair {α κ : Type} [DecidableEq κ] (f : α → κ) (a b : α) :
    dedupBy f [a, b] = if f b = f a then [a] else [a, b] := by
  unfold dedupBy
  rw [dedupSeen, if_neg (by simp), dedupSeen]
  by_cases h : f b = f a
  · rw [if_pos (by simp [h]), if_pos h]
    rfl
  · rw [if_neg (by simp [h]), if_neg h]
    simp [dedupSeen]

/- ### Stable sort by a tuple of string keys (model of Python's
`list.sort(key=...)` with a tuple of strings) -/

/-- Lexicographic comparison of character lists by code point: Python's
`<` on strings. -/
def lexLt : List Char → List Char → Bool
  | [], [] => false
  | [], _ :: _ => true
  | _ :: _, [] => false
  | a :: as, b :: bs => if a < b then true else if a = b then lexLt as bs else false

def strLtB (s t : String) : Bool := lexLt s.data t.data

/-- Lexicographic comparison of equal-length string tuples: Python's `<`
on tuples of strings. -/
def keysLt : List String → List String → Bool
  | [], _ => false
  | _ :: _, [] => false
  | a :: as, b :: bs => if strLtB a b then true else if a = b then keysLt as bs else false

def insertStable {α : Type} (le : α → α → Bool) (x : α) : List α → List α
  | [] => [x]
  | y :: ys => if le x y then x :: y :: ys else y :: insertStable le x ys

/-- Insertion sort with a total boolean `le`; with `le a b = ¬(key b <
key a)` this produces the same output as Python's stable `list.sort`
with that key. -/
def sortStable {α : Type} (le : α → α → Bool) : List α → List α
  | [] => []
  | x :: xs => insertStable le x (sortStable le xs)

def keyLe {α : Type} (f : α → List String) (a b : α) : Bool := !(keysLt (f b) (f a))

def sortByKeys {α : Type} (f : α → List String) (l : List α) : List α :=
  sortStable (keyLe f) l

theorem mem_insertStable {α : Type} (le : α → α → Bool) (x a : α) :
    ∀ l : List α, a ∈ insertStable le x l ↔ a = x ∨ a ∈ l := by
  intro l
  induction l with
  | nil => simp [insertStable]
  | cons y ys ih =>
    rw [insertStable]
    by_cases h : le x y = true
    · rw [if_pos h]
      simp
    · rw [if_neg h]
      simp [ih]
      tauto

theorem mem_sortStable {α : Type} (le : α → α → Bool) (a : α) :
    ∀ l : List α, a ∈ sortStable le l ↔ a ∈ l := by
  intro l
  induction l with
  | nil => simp [sortStable]
  | cons x xs ih =>
    rw [sortStable, mem_insertStable]
    simp [ih]

theorem mem_sortByKeys {α : Type} (f : α → List String) (a : α) (l : List α) :
    a ∈ sortByKeys f l ↔ a ∈ l :=
  mem_sortStable _ a l

/- ### takeWhile / drop facts used by the regex models -/

theorem drop_takeWhile_length (p : Char → Bool) (l : List Char) :
    l.drop (l.takeWhile p).length = l.dropWhile p := by
  calc l.drop (l.takeWhile p).length
      = (l.takeWhile p ++ l.dropWhile p).drop (l.takeWhile p).length := by
        rw [List.takeWhile_append_dropWhile]
    _ = l.dropWhile p := List.drop_left _ _

theorem takeWhile_run_stop {p : Char → Bool} {xs : List Char} {y : Char}
    (hxs : ∀ x ∈ xs, p x = true) (hy : p y = false) (rest : List Char) :
    (xs ++ y :: rest).takeWhile p = xs := by
  induction xs with
  | nil => simp [List.takeWhile, hy]
  | cons a t ih =>
    have ha : p a = true := hxs a (by simp)
    simp only [List.cons_append, List.takeWhile_cons, ha, if_true]
    rw [ih (fun x hx => hxs x (by simp [hx]))]

theorem takeWhile_run_all {p : Char → Bool} {xs : List Char}
    (hxs : ∀ x ∈ xs, p x = true) : xs.takeWhile p = xs := by
  induction xs with
  | nil => rfl
  | cons a t ih =>
    have ha : p a = true := hxs a (by simp)
    simp only [List.takeWhile_cons, ha, if_true]
    rw [ih (fun x hx => hxs x (by simp [hx]))]

/- ### The time-range regex
`(\d{1,2}:\d{2}\s*[AP]M)\s+(\d{1,2}:\d{2}\s*[AP]M)` with `re.I`
(`parse_time_range` in both extraction scripts; the root script also
searches the same pattern inside the block text).

The embedding is a deterministic position-by-position scanner.  It agrees
with Python's backtracking engine on this pattern: every boundary between
consecutive regex pieces separates disjoint character classes (digits /
`:` / whitespace / `[APap]` / `[Mm]`), so greedy matching with no
backtracking is exact.  The only piece where backtracking could fire is
`\d{1,2}` followed by `:`; if the two-digit attempt fails because a third
digit follows, the one-digit attempt also fails on the second digit, so
rejecting whenever the digit run is longer than two is equivalent. -/

def isApC (c : Char) : Bool := c == 'A' || c == 'P' || c == 'a' || c == 'p'

def isMC (c : Char) : Bool := c == 'M' || c == 'm'

/-- Match one `\d{1,2}:\d{2}\s*[AP]M` token (case-insensitive) at the
head of the list; return the matched group and the remaining input. -/
def matchTok (l : List Char) : Option (List Char × List Char) :=
  let ds := l.takeWhile isDigitC
  if 1 ≤ ds.length ∧ ds.length ≤ 2 then
    match l.drop ds.length with
    | ':' :: m1 :: m2 :: r3 =>
      if isDigitC m1 && isDigitC m2 then
        let sep := r3.takeWhile isWsC
        match r3.drop sep.length with
        | a :: mc :: r4 =>
          if isApC a && isMC mc then
            some (ds ++ ':' :: m1 :: m2 :: (sep ++ [a, mc]), r4)
          else none
        | _ => none
      else none
    | _ => none
  else none

/-- Match the full pair pattern at the head of the list; return both
captured groups and the `\s+` separator between them. -/
def matchPairAt (l : List Char) : Option (List Char × List Char × List Char) :=
  match matchTok l with
  | none => none
  | some (t1, r1) =>
    let ws := r1.takeWhile isWsC
    if ws.length = 0 then none
    else
      match matchTok (r1.drop ws.length) with
      | none => none
      | some (t2, _) => some (t1, ws, t2)

/-- `re.search` for the pair pattern: try every start position from the
left, first hit wins.  (At the empty suffix the pattern cannot match: a
token needs at least one digit.) -/
def searchPairL : List Char → Option (List Char × List Char × List Char)
  | [] => none
  | c :: t =>
    match matchPairAt (c :: t) with
    | some r => some r
    | none => searchPairL t

/-- Model of `group.upper().replace(" ", "")`. -/
def normTokL (t : List Char) : List Char :=
  (t.map upperC).filter (fun c => !(c == ' '))

/-- `parse_time_range` (identical function bodies in
fetch_sketchboard_drinkdraw.py at the root and under scripts/):
whitespace-normalise, search for the pair pattern, return the two groups
upper-cased with spaces removed, or a pair of empty strings when the
pattern is absent. -/
def parse_time_range (s : String) : String × String :=
  match searchPairL (collapseL s.data) with
  | none => ("", "")
  | some (t1, _w, t2) => (String.mk (normTokL t1), String.mk (normTokL t2))

/- ### Specification-side shape of a time token and of a pair occurrence -/

def DigitRun (l : List Char) : Prop := ∀ c ∈ l, isDigitC c = true

def WsRun (l : List Char) : Prop := ∀ c ∈ l, isWsC c = true

/-- A token of the shape one-or-two digits, a colon, two digits, optional
whitespace, and an AM/PM marker (case-insensitive).  No numeric range
constraint is imposed. -/
def TimeTokShape (t : List Char) : Prop :=
  ∃ hs m1 m2 sep a mc,
    t = hs ++ ':' :: m1 :: m2 :: (sep ++ [a, mc]) ∧
    DigitRun hs ∧ 1 ≤ hs.length ∧ hs.length ≤ 2 ∧
    isDigitC m1 = true ∧ isDigitC m2 = true ∧
    WsRun sep ∧ isApC a = true ∧ isMC mc = true

/-- The whitespace-normalised input contains two whitespace-separated
time tokens: the relational rendering of "the pattern occurs". -/
def ContainsTimePair (s : String) : Prop :=
  ∃ pre t1 ws t2 rest,
    collapseL s.data = pre ++ t1 ++ ws ++ t2 ++ rest ∧
    TimeTokShape t1 ∧ WsRun ws ∧ ws ≠ [] ∧ TimeTokShape t2

theorem isWsC_of_isApC {c : Char} (h : isApC c = true) : isWsC c = false := by
  simp only [isApC, Bool.or_eq_true, beq_iff_eq] at h
  obtain ((h | h) | h) | h := h <;> subst h <;> decide

theorem timeTokShape_head {t : List Char} (h : TimeTokShape t) :
    ∃ c cs, t = c :: cs ∧ isWsC c = false := by
  obtain ⟨hs, m1, m2, sep, a, mc, heq, hd, hlen1, _⟩ := h
  cases hs with
  | nil => simp at hlen1
  | cons c cs' =>
    refine ⟨c, cs' ++ ':' :: m1 :: m2 :: (sep ++ [a, mc]), ?_,
      isWsC_of_isDigitC (hd c (by simp))⟩
    rw [heq]
    rfl

theorem matchTok_sound : ∀ {l t r : List Char}, matchTok l = some (t, r) →
    l = t ++ r ∧ TimeTokShape t := by
  intro l t r h
  simp only [matchTok] at h
  split at h
  · rename_i hlen
    split at h
    · rename_i m1 m2 r3 heq
      split at h
      · rename_i hm12
        split at h
        · rename_i a mc r4 heq2
          split at h
          · rename_i hap
            simp only [Option.some.injEq, Prod.mk.injEq] at h
            obtain ⟨ht, hr⟩ := h
            subst ht hr
            rw [Bool.and_eq_true] at hm12 hap
            have hl1 : l = l.takeWhile isDigitC ++ (':' :: m1 :: m2 :: r3) := by
              rw [← heq, drop_takeWhile_length, List.takeWhile_append_dropWhile]
            have hr3 : r3 = r3.takeWhile isWsC ++ (a :: mc :: r4) := by
              rw [← heq2, drop_takeWhile_length, List.takeWhile_append_dropWhile]
            constructor
            · conv_lhs => rw [hl1, hr3]
              simp [List.append_assoc]
            · exact ⟨l.takeWhile isDigitC, m1, m2, r3.takeWhile isWsC, a, mc, rfl,
                fun c hc => List.mem_takeWhile_imp hc, hlen.1, hlen.2,
                hm12.1, hm12.2, fun c hc => List.mem_takeWhile_imp hc,
                hap.1, hap.2⟩
          · exact absurd h (by simp)
        · exact absurd h (by simp)
      · exact absurd h (by simp)
    · exact absurd h (by simp)
  · exact absurd h (by simp)

theorem matchTok_complete {t : List Char} (h : TimeTokShape t) (r : List Char) :
    matchTok (t ++ r) = some (t, r) := by
  obtain ⟨hs, m1, m2, sep, a, mc, rfl, hd, h1, h2, hm1, hm2, hsep, hap, hmc⟩ := h
  have hL : (hs ++ ':' :: m1 :: m2 :: (sep ++ [a, mc])) ++ r
      = hs ++ ':' :: m1 :: m2 :: (sep ++ a :: mc :: r) := by
    simp [List.append_assoc]
  rw [hL]
  have htw : (hs ++ ':' :: m1 :: m2 :: (sep ++ a :: mc :: r)).takeWhile isDigitC = hs :=
    takeWhile_run_stop hd (by decide) _
  have hdrop1 : (hs ++ ':' :: m1 :: m2 :: (sep ++ a :: mc :: r)).drop hs.length
      = ':' :: m1 :: m2 :: (sep ++ a :: mc :: r) := List.drop_left _ _
  have htw2 : (sep ++ a :: mc :: r).takeWhile isWsC = sep :=
    takeWhile_run_stop hsep (isWsC_of_isApC hap) _
  have hdrop2 : (sep ++ a :: mc :: r).drop sep.length = a :: mc :: r := List.drop_left _ _
  simp only [matchTok, htw]
  rw [if_pos ⟨h1, h2⟩, hdrop1]
  simp [htw2, hdrop2, hm1, hm2, hap, hmc, List.append_assoc]

theorem matchPairAt_sound {l t1 w t2 : List Char}
    (h : matchPairAt l = some (t1, w, t2)) :
    ∃ rest, l = t1 ++ w ++ t2 ++ rest ∧
      TimeTokShape t1 ∧ WsRun w ∧ w ≠ [] ∧ TimeTokShape t2 := by
  simp only [matchPairAt] at h
  cases h1 : matchTok l with
  | none => rw [h1] at h; exact absurd h (by simp)
  | some p =>
    obtain ⟨t1', r1⟩ := p
    rw [h1] at h
    dsimp only at h
    split at h
    · exact absurd h (by simp)
    · rename_i hws
      cases h2 : matchTok (r1.drop (r1.takeWhile isWsC).length) with
      | none => rw [h2] at h; exact absurd h (by simp)
      | some q =>
        obtain ⟨t2', r2⟩ := q
        rw [h2] at h
        dsimp only at h
        simp only [Option.some.injEq, Prod.mk.injEq] at h
        obtain ⟨ht1, hw, ht2⟩ := h
        subst ht1 hw ht2
        obtain ⟨hl1, hshape1⟩ := matchTok_sound h1
        obtain ⟨hl2, hshape2⟩ := matchTok_sound h2
        have hr1 : r1 = r1.takeWhile isWsC ++ (t2' ++ r2) := by
          rw [← hl2, drop_takeWhile_length, List.takeWhile_append_dropWhile]
        refine ⟨r2, ?_, hshape1, fun c hc => List.mem_takeWhile_imp hc, ?_, hshape2⟩
        · rw [hl1]
          conv_lhs => rw [hr1]
          simp [List.append_assoc]
        · intro hnil
          rw [hnil] at hws
          exact hws rfl

theorem matchPairAt_complete {t1 w t2 : List Char} (h1 : TimeTokShape t1)
    (hw : WsRun w) (hne : w ≠ []) (h2 : TimeTokShape t2) (rest : List Char) :
    matchPairAt (t1 ++ w ++ t2 ++ rest) = some (t1, w, t2) := by
  have e1 : matchTok (t1 ++ (w ++ t2 ++ rest)) = some (t1, w ++ t2 ++ rest) :=
    matchTok_complete h1 _
  have hL : t1 ++ w ++ t2 ++ rest = t1 ++ (w ++ t2 ++ rest) := by
    simp [List.append_assoc]
  rw [hL]
  simp only [matchPairAt, e1]
  obtain ⟨c, cs, heqt2, hcws⟩ := timeTokShape_head h2
  have htw : (w ++ t2 ++ rest).takeWhile isWsC = w := by
    rw [heqt2]
    simp only [List.append_assoc, List.cons_append]
    exact takeWhile_run_stop hw hcws _
  have hd1 : (w ++ t2 ++ rest).drop w.length = t2 ++ rest := by
    simp only [List.append_assoc]
    exact List.drop_left _ _
  rw [htw, if_neg (fun hz => hne (List.length_eq_zero.mp hz)), hd1,
    matchTok_complete h2 rest]

theorem searchPairL_sound : ∀ {l t1 w t2 : List Char},
    searchPairL l = some (t1, w, t2) →
    ∃ pre rest, l = pre ++ t1 ++ w ++ t2 ++ rest ∧
      TimeTokShape t1 ∧ WsRun w ∧ w ≠ [] ∧ TimeTokShape t2 := by
  intro l
  induction l with
  | nil =>
    intro t1 w t2 h
    simp [searchPairL] at h
  | cons c t ih =>
    intro t1 w t2 h
    rw [searchPairL] at h
    cases hm : matchPairAt (c :: t) with
    | some r =>
      rw [hm] at h
      dsimp only at h
      rw [Option.some.injEq] at h
      subst h
      obtain ⟨rest, hl, hs1, hs2, hs3, hs4⟩ := matchPairAt_sound hm
      exact ⟨[], rest, by simpa using hl, hs1, hs2, hs3, hs4⟩
    | none =>
      rw [hm] at h
      dsimp only at h
      obtain ⟨pre, rest, hl, hs1, hs2, hs3, hs4⟩ := ih h
      exact ⟨c :: pre, rest, by simp [hl], hs1, hs2, hs3, hs4⟩

theorem searchPairL_isSome : ∀ (pre : List Char) {t1 w t2 : List Char}
    (rest : List Char), TimeTokShape t1 → WsRun w → w ≠ [] → TimeTokShape t2 →
    (searchPairL (pre ++ t1 ++ w ++ t2 ++ rest)).isSome = true := by
  intro pre
  induction pre with
  | nil =>
    intro t1 w t2 rest h1 hw hne h2
    obtain ⟨c, cs, heqt1, _⟩ := timeTokShape_head h1
    have hL : [] ++ t1 ++ w ++ t2 ++ rest = c :: (cs ++ w ++ t2 ++ rest) := by
      simp [heqt1, List.append_assoc]
    rw [hL, searchPairL]
    have hm : matchPairAt (c :: (cs ++ w ++ t2 ++ rest)) = some (t1, w, t2) := by
      have := matchPairAt_complete h1 hw hne h2 rest
      have hL2 : t1 ++ w ++ t2 ++ rest = c :: (cs ++ w ++ t2 ++ rest) := by
        simp [heqt1, List.append_assoc]
      rwa [hL2] at this
    rw [hm]
    rfl
  | cons c pre' ih =>
    intro t1 w t2 rest h1 hw hne h2
    have hL : (c :: pre') ++ t1 ++ w ++ t2 ++ rest
        = c :: (pre' ++ t1 ++ w ++ t2 ++ rest) := by
      simp [List.append_assoc]
    rw [hL, searchPairL]
    cases hm : matchPairAt (c :: (pre' ++ t1 ++ w ++ t2 ++ rest)) with
    | some r => simp
    | none =>
      dsimp only
      exact ih rest h1 hw hne h2

theorem normTokL_ne_nil {t : List Char} (h : TimeTokShape t) :
    String.mk (normTokL t) ≠ "" := by
  obtain ⟨hs, m1, m2, sep, a, mc, rfl, _⟩ := h
  intro hcon
  have hdata : normTokL (hs ++ ':' :: m1 :: m2 :: (sep ++ [a, mc])) = [] :=
    congrArg String.data hcon
  have hmem : ':' ∈ normTokL (hs ++ ':' :: m1 :: m2 :: (sep ++ [a, mc])) := by
    unfold normTokL
    rw [List.mem_filter]
    constructor
    · exact List.mem_map.mpr ⟨':', by simp, by decide⟩
    · decide
  rw [hdata] at hmem
  exact absurd hmem (by simp)

theorem parse_time_range_empty_iff (s : String) :
    parse_time_range s = ("", "") ↔ ¬ ContainsTimePair s := by
  constructor
  · intro h hc
    obtain ⟨pre, t1, ws, t2, rest, hl, h1, hw, hne, h2⟩ := hc
    have hsome := searchPairL_isSome pre rest h1 hw hne h2
    rw [← hl] at hsome
    unfold parse_time_range at h
    cases hs : searchPairL (collapseL s.data) with
    | none => rw [hs] at hsome; exact absurd hsome (by simp)
    | some r =>
      obtain ⟨u1, uw, u2⟩ := r
      rw [hs] at h
      dsimp only at h
      obtain ⟨_, _, _, hshape1, _⟩ := searchPairL_sound hs
      rw [Prod.mk.injEq] at h
      exact normTokL_ne_nil hshape1 h.1
  · intro h
    unfold parse_time_range
    cases hs : searchPairL (collapseL s.data) with
    | none => rfl
    | some r =>
      obtain ⟨u1, uw, u2⟩ := r
      obtain ⟨pre, rest, hl, hs1, hs2, hs3, hs4⟩ := searchPairL_sound hs
      exact absurd ⟨pre, u1, uw, u2, rest, hl, hs1, hs2, hs3, hs4⟩ h

theorem parse_time_range_of_pair {s : String} (h : ContainsTimePair s) :
    ∃ t1 t2, TimeTokShape t1 ∧ TimeTokShape t2 ∧
      parse_time_range s = (String.mk (normTokL t1), String.mk (normTokL t2)) := by
  obtain ⟨pre, t1, ws, t2, rest, hl, h1, hw, hne, h2⟩ := h
  have hsome := searchPairL_isSome pre rest h1 hw hne h2
  rw [← hl] at hsome
  cases hs : searchPairL (collapseL s.data) with
  | none => rw [hs] at hsome; exact absurd hsome (by simp)
  | some r =>
    obtain ⟨u1, uw, u2⟩ := r
    obtain ⟨pre', rest', hl', hu1, huw, hune, hu2⟩ := searchPairL_sound hs
    refine ⟨u1, u2, hu1, hu2, ?_⟩
    unfold parse_time_range
    rw [hs]

/- ### The long-form date: `datetime.strptime(s.strip(), "%A, %B %d, %Y")`
followed by `strftime("%Y-%m-%d")` (function `parse_date` in
scripts/fetch_sketchboard_drinkdraw.py; the root script's
`parse_long_date` has the identical body).

CPython's `_strptime` compiles the format to a regex: weekday and month
names become case-insensitive alternations, each literal space becomes
`\s+`, `%d` becomes `(3[01]|[12]\d|0[1-9]|[1-9])`, `%Y` becomes
`\d{4}`; the regex must consume the entire (stripped) input, and the
resulting calendar date must be constructible (day within the month,
year at least 1).  The embedding below parses deterministically; this is
exact for the same disjoint-character-class reasons as for the time
regex, and `%d` rejecting digit runs longer than two is equivalent to
the engine's backtracking because the following literal `,` can never be
a digit. -/

def dayNamesLower : List (List Char) :=
  ["monday".data, "tuesday".data, "wednesday".data, "thursday".data,
   "friday".data, "saturday".data, "sunday".data]

def monthAlts : List (List Char × Nat) :=
  [("january".data, 1), ("february".data, 2), ("march".data, 3),
   ("april".data, 4), ("may".data, 5), ("june".data, 6), ("july".data, 7),
   ("august".data, 8), ("september".data, 9), ("october".data, 10),
   ("november".data, 11), ("december".data, 12)]

/-- Canonical lower-case month name for month number 1..12. -/
def monthLower (m : Nat) : List Char :=
  match m with
  | 1 => "january".data
  | 2 => "february".data
  | 3 => "march".data
  | 4 => "april".data
  | 5 => "may".data
  | 6 => "june".data
  | 7 => "july".data
  | 8 => "august".data
  | 9 => "september".data
  | 10 => "october".data
  | 11 => "november".data
  | 12 => "december".data
  | _ => []

/-- First name of the list that is a case-insensitive prefix of `l`;
returns the remaining input. -/
def takeAnyCI (names : List (List Char)) (l : List Char) : Option (List Char) :=
  match names with
  | [] => none
  | nm :: rest =>
    if nm.isPrefixOf (lowerL l) then some (l.drop nm.length) else takeAnyCI rest l

/-- First named alternative that matches case-insensitively; returns its
value and the remaining input. -/
def takeNameCI (alts : List (List Char × Nat)) (l : List Char) :
    Option (Nat × List Char) :=
  match alts with
  | [] => none
  | (nm, v) :: rest =>
    if nm.isPrefixOf (lowerL l) then some (v, l.drop nm.length) else takeNameCI rest l

def expectC (c : Char) (l : List Char) : Option (List Char) :=
  match l with
  | d :: t => if d = c then some t else none
  | [] => none

/-- `\s+`: at least one whitespace character, consumed maximally. -/
def takeWs1 (l : List Char) : Option (List Char) :=
  match l with
  | c :: _ => if isWsC c then some (l.dropWhile isWsC) else none
  | [] => none

/-- `%d` followed by a literal `,`: a run of one or two digits with value
1..31 (the strptime day regex). -/
def takeDay (l : List Char) : Option (Nat × List Char) :=
  let ds := l.takeWhile isDigitC
  let d := natOfDigits ds
  if 1 ≤ ds.length ∧ ds.length ≤ 2 ∧ 1 ≤ d ∧ d ≤ 31 then
    some (d, l.drop ds.length)
  else none

/-- `%Y` at the end of the input: exactly four digits. -/
def takeYear4 (l : List Char) : Option (Nat × List Char) :=
  let ys := l.takeWhile isDigitC
  if ys.length = 4 then some (natOfDigits ys, l.drop ys.length) else none

def isLeap (y : Nat) : Bool := y % 4 == 0 && (y % 100 != 0 || y % 400 == 0)

def daysInMonth (y m : Nat) : Nat :=
  if m = 2 then (if isLeap y then 29 else 28)
  else if m = 4 ∨ m = 6 ∨ m = 9 ∨ m = 11 then 30
  else 31

def pad2 (n : Nat) : List Char := [digitChar (n / 10 % 10), digitChar (n % 10)]

def pad4 (n : Nat) : List Char :=
  [digitChar (n / 1000 % 10), digitChar (n / 100 % 10),
   digitChar (n / 10 % 10), digitChar (n % 10)]

/-- `dt.strftime("%Y-%m-%d")`: zero-padded ISO rendering. -/
def isoStr (y m d : Nat) : String :=
  String.mk (pad4 y ++ '-' :: (pad2 m ++ '-' :: pad2 d))

/-- `parse_date` of scripts/fetch_sketchboard_drinkdraw.py: strip, parse
the exact `"%A, %B %d, %Y"` pattern, reject non-dates, render ISO.
Failure (`none`) models the `ValueError` raised by `strptime`/`datetime`. -/
def parse_date (s : String) : Option String := do
  let l := stripL s.data
  let r1 ← takeAnyCI dayNamesLower l
  let r2 ← expectC ',' r1
  let r3 ← takeWs1 r2
  let (m, r4) ← takeNameCI monthAlts r3
  let r5 ← takeWs1 r4
  let (d, r6) ← takeDay r5
  let r7 ← expectC ',' r6
  let r8 ← takeWs1 r7
  let (y, r9) ← takeYear4 r8
  if r9 = [] ∧ 1 ≤ y ∧ d ≤ daysInMonth y m then pure (isoStr y m d) else none

/-- `parse_long_date` of the root script: its body is character-for-
character the same strip-strptime-strftime composition as `parse_date`. -/
def parse_long_date (s : String) : Option String := parse_date s

/- ### The weekday-date regex searched inside block text:
`(Monday|...|Sunday),\s+[A-Za-z]+\s+\d{1,2},\s+\d{4}` (case-sensitive,
both extraction scripts).  Deterministic for the usual
disjoint-class reasons; `\d{4}` matches the first four of a longer digit
run because the pattern ends there. -/

def dayNamesCap : List (List Char) :=
  ["Monday".data, "Tuesday".data, "Wednesday".data, "Thursday".data,
   "Friday".data, "Saturday".data, "Sunday".data]

def isAlphaC (c : Char) : Bool :=
  (65 ≤ c.toNat && c.toNat ≤ 90) || (97 ≤ c.toNat && c.toNat ≤ 122)

/-- First name that is a (case-sensitive) prefix; returns the matched
name and the remaining input. -/
def takeAnyCS (names : List (List Char)) (l : List Char) :
    Option (List Char × List Char) :=
  match names with
  | [] => none
  | nm :: rest =>
    if nm.isPrefixOf l then some (nm, l.drop nm.length) else takeAnyCS rest l

/-- Match the weekday-date regex at the head of `l`; returns `group(0)`. -/
def matchDateAt (l : List Char) : Option (List Char) :=
  match takeAnyCS dayNamesCap l with
  | none => none
  | some (wd, r1) =>
    match r1 with
    | ',' :: r2 =>
      match r2 with
      | c :: _ =>
        if isWsC c then
          let ws1 := r2.takeWhile isWsC
          let r3 := r2.drop ws1.length
          let letters := r3.takeWhile isAlphaC
          if letters.length = 0 then none
          else
            let r4 := r3.drop letters.length
            match r4 with
            | c2 :: _ =>
              if isWsC c2 then
                let ws2 := r4.takeWhile isWsC
                let r5 := r4.drop ws2.length
                let ds := r5.takeWhile isDigitC
                if 1 ≤ ds.length ∧ ds.length ≤ 2 then
                  match r5.drop ds.length with
                  | ',' :: r6 =>
                    match r6 with
                    | c3 :: _ =>
                      if isWsC c3 then
                        let ws3 := r6.takeWhile isWsC
                        let r7 := r6.drop ws3.length
                        if (r7.take 4).all isDigitC ∧ 4 ≤ r7.length then
                          some (wd ++ ',' ::
                            (ws1 ++ letters ++ ws2 ++ ds ++ ',' :: (ws3 ++ r7.take 4)))
                        else none
                      else none
                    | [] => none
                  | _ => none
                else none
              else none
            | [] => none
        else none
      | [] => none
    | _ => none

/-- `re.search` for the weekday-date regex. -/
def findLongDate : List Char → Option (List Char)
  | [] => none
  | c :: t =>
    match matchDateAt (c :: t) with
    | some g => some g
    | none => findLongDate t

/- ### The price regex `\$\d+[^\\n]*` (both extraction scripts).  The
pattern is written inside a raw string, so the class is `[^\\n]`:
every character except a backslash or a literal letter n — not "except
newline".  Since digits belong to the class, the greedy `\d+` followed
by the greedy class run together consume the maximal class run after
the dollar sign, provided it starts with a digit. -/

def matchPriceAt (l : List Char) : Option (List Char) :=
  match l with
  | '$' :: r =>
    match r with
    | c :: _ =>
      if isDigitC c then
        some ('$' :: r.takeWhile (fun ch => !(ch == '\\') && !(ch == 'n')))
      else none
    | [] => none
  | _ => none

def priceSearch : List Char → Option (List Char)
  | [] => none
  | c :: t =>
    match matchPriceAt (c :: t) with
    | some g => some g
    | none => priceSearch t

/- ### Classifier (root script) and candidate filter (scripts variant) -/

def figure_terms : List String :=
  ["figure", "life drawing", "model session", "open studio (figure)", "gesture"]

/-- `classify_event` of the root script: returns
`(category, venue_override, price_override)` or `none` for the Python
`(None, None, None)` sentinel. -/
def classify_event (title block_text : String) : Option (String × String × String) :=
  let t := pyLower title
  let b := pyLower block_text
  if figure_terms.any (fun term => substrB term t || substrB term b) then
    some ("Figure Drawing", "Sketchboard (Figure Session)", "")
  else if substrB "madrone" t || substrB "madrone" b ||
      (substrB "drink" t && substrB "draw" t) ||
      (substrB "drink" b && substrB "draw" b) then
    some ("Drink & Draw", "Sketchboard @ Madrone Art Bar",
      "$15 CASH ONLY @ the door (per Sketchboard schedule)")
  else none

/-- `is_drink_draw_candidate` of the scripts variant. -/
def is_drink_draw_candidate (title venue_line : String) : Bool :=
  let t := pyLower title
  let v := pyLower venue_line
  substrB "madrone" t || substrB "madrone" v ||
    (substrB "drink" t && substrB "draw" t)

/-- `abs_url` of the root script. -/
def abs_url (href : String) : String :=
  let h := pyStrip href
  if h = "" then ""
  else if startsWithB "http" h then h
  else if startsWithB "/" h then
    String.mk ("https://www.sketchboard.co".data ++ h.data)
  else
    String.mk ("https://www.sketchboard.co/".data ++
      h.data.dropWhile (fun c => c == '/'))

/-- Model of Python's `block.split("\n")`. -/
def splitNlL (l : List Char) : List (List Char) :=
  l.foldr (fun c acc =>
    match acc with
    | w :: ws => if c = '\n' then [] :: w :: ws else (c :: w) :: ws
    | [] => [[c]]) [[]]

def splitNlS (s : String) : List String := (splitNlL s.data).map String.mk

/-- The fixed provenance string written into every produced record. -/
def marker : String := "Auto-imported from sketchboard.co/schedule"

/- ### The root extraction pipeline (fetch_sketchboard_drinkdraw.py) -/

namespace Root

/-- The per-anchor body of the root script's main loop: all the
`continue` filters, date and time extraction, classification, price
detection, and record construction.  `none` models `continue`. -/
def processAnchor (a : Anchor) : Option Row :=
  let title := pyCollapse a.text
  let href := abs_url a.href
  if title = "" then none
  else if substrB "View Event" title then none
  else if !(substrB "sketchboard.co" href) then none
  else
    match a.parent with
    | none => none
    | some block =>
      match findLongDate block.data with
      | none => none
      | some dm =>
        match parse_long_date (String.mk dm) with
        | none => none
        | some dateIso =>
          let st_en :=
            match searchPairL block.data with
            | none => ("", "")
            | some (t1, w, t2) => parse_time_range (String.mk (t1 ++ w ++ t2))
          match classify_event title block with
          | none => none
          | some (category, venueOverride, priceOverride) =>
            let price :=
              match priceSearch block.data with
              | none => ""
              | some g => String.mk (stripL g)
            some {
              date := dateIso
              venue := if venueOverride = "" then "Sketchboard" else venueOverride
              title := title
              category := category
              event_type := ""
              start_time := st_en.1
              end_time := st_en.2
              price_text := if price = "" then priceOverride else price
              is_museum := "no"
              museum_name := ""
              event_url := href
              notes := marker }

/-- The root script's per-run de-duplication key:
`(ev["date"], ev["title"].lower().strip(), ev["start_time"].strip())`. -/
def keyRun (ev : Row) : String × String × String :=
  (ev.date, pyStrip (pyLower ev.title), pyStrip ev.start_time)

def extractEvents (anchors : List Anchor) : List Row :=
  anchors.filterMap processAnchor

def sortKey (ev : Row) : List String := [ev.date, ev.start_time, ev.title]

/-- The record list the root main writes to stdout: extracted records,
de-duplicated first-seen by `keyRun`, sorted by (date, start_time,
title). -/
def mainEvents (anchors : List Anchor) : List Row :=
  sortByKeys sortKey (dedupBy keyRun (extractEvents anchors))

end Root

/- ### The scripts/ extraction pipeline
(scripts/fetch_sketchboard_drinkdraw.py) -/

namespace Scripts

/-- The venue-line scan of the scripts variant: the first line of the
block containing "Madrone", or the empty string.  (The source's loop
only assigns and breaks when "Madrone" is in the current line, so the
outer `or "Madrone" in block_text` disjunct never changes the result.) -/
def venueLineOf (block : String) : String :=
  match (splitNlS block).find? (fun ln => substrB "Madrone" ln) with
  | some ln => ln
  | none => ""

/-- The per-anchor body of the scripts variant's main loop. -/
def processAnchor (a : Anchor) : Option Row :=
  let text := pyCollapse a.text
  if text = "" then none
  else if startsWithB "http" a.href && !(substrB "sketchboard.co" a.href) then none
  else
    let href := if startsWithB "/" a.href
      then String.mk ("https://www.sketchboard.co".data ++ a.href.data)
      else a.href
    if substrB "View Event" text then none
    else if !(substrB "sketchboard.co" href) then none
    else
      match a.parent with
      | none => none
      | some block =>
        match findLongDate block.data with
        | none => none
        | some dm =>
          match parse_date (String.mk dm) with
          | none => none
          | some dateIso =>
            let st_en :=
              match searchPairL block.data with
              | none => ("", "")
              | some (t1, w, t2) => parse_time_range (String.mk (t1 ++ w ++ t2))
            if !(is_drink_draw_candidate text (venueLineOf block)) then none
            else
              let price :=
                match priceSearch block.data with
                | none => ""
                | some g => String.mk (stripL g)
              some {
                date := dateIso
                venue := "Sketchboard @ Madrone Art Bar"
                title := text
                category := "Drink & Draw"
                event_type := ""
                start_time := st_en.1
                end_time := st_en.2
                price_text := if price = ""
                  then "$15 CASH ONLY @ the door (per Sketchboard schedule)"
                  else price
                is_museum := "no"
                museum_name := ""
                event_url := href
                notes := marker }

/-- The scripts variant's per-run de-duplication key:
`(ev["date"], ev["title"].lower().strip())`. -/
def keyRun (ev : Row) : String × String := (ev.date, pyStrip (pyLower ev.title))

def extractEvents (anchors : List Anchor) : List Row :=
  anchors.filterMap processAnchor

def sortKey (ev : Row) : List String := [ev.date, ev.start_time, ev.title]

def mainEvents (anchors : List Anchor) : List Row :=
  sortByKeys sortKey (dedupBy keyRun (extractEvents anchors))

end Scripts

/- ### The merger (scripts/merge_csv.py) -/

namespace Merge

/-- The merge-time de-duplication key (function `key` of merge_csv.py):
`(date, venue.lower().strip(), title.lower().strip(), start_time.strip())`. -/
def key (row : Row) : String × String × String × String :=
  (row.date, pyStrip (pyLower row.venue), pyStrip (pyLower row.title),
   pyStrip row.start_time)

def sortKeyM (r : Row) : List String := [r.date, r.start_time, r.venue, r.title]

/-- `read_csv` strips every field of every row it reads. -/
def stripRow (r : Row) : Row :=
  { date := pyStrip r.date, venue := pyStrip r.venue, title := pyStrip r.title,
    category := pyStrip r.category, event_type := pyStrip r.event_type,
    start_time := pyStrip r.start_time, end_time := pyStrip r.end_time,
    price_text := pyStrip r.price_text, is_museum := pyStrip r.is_museum,
    museum_name := pyStrip r.museum_name, event_url := pyStrip r.event_url,
    notes := pyStrip r.notes }

/-- `read_csv`: an absent file reads as the empty row list; an existing
file reads as its parsed rows with each field stripped.  (CSV text
parsing by `csv.DictReader` is abstracted to the row list it yields.) -/
def read_csv (file : Option (List Row)) : List Row :=
  match file with
  | none => []
  | some rows => rows.map stripRow

/-- Removal of prior auto-imported rows: keep exactly the base rows whose
notes do not contain the provenance marker. -/
def cleanBase (rows : List Row) : List Row :=
  rows.filter (fun r => !(substrB marker r.notes))

/-- The merge computation on row lists: clean the base, append the auto
rows, de-duplicate first-seen by `key`, sort by (date, start_time,
venue, title). -/
def mergeRows (base autoRows : List Row) : List Row :=
  sortByKeys sortKeyM (dedupBy key (cleanBase base ++ autoRows))

/-- `main` of merge_csv.py as a function of the two files' contents
(`none` = file absent); the result is what gets rewritten to the base
file. -/
def mainMerge (baseFile autoFile : Option (List Row)) : List Row :=
  mergeRows (read_csv baseFile) (read_csv autoFile)

end Merge

/- ### Relational grammar of `"%A, %B %d, %Y"` and correctness of
`parse_date` against it -/

/-- The strptime grammar of `"%A, %B %d, %Y"`, as a relation between the
input string and the (year, month, day) it denotes: after stripping, a
case-insensitive weekday name, a literal comma, runs of whitespace where
the format has spaces, a case-insensitive month name, a one-or-two digit
day (1..31, no "00"/"0"), a comma, and exactly four year digits ending
the input; the denoted calendar date must exist (day within the month,
year at least 1). -/
def LongDateGrammar (s : String) (y m d : Nat) : Prop :=
  ∃ wdS moS ws1 ws2 ws3 dayS yearS,
    stripL s.data
      = wdS ++ ',' :: (ws1 ++ (moS ++ (ws2 ++ (dayS ++ ',' :: (ws3 ++ yearS))))) ∧
    lowerL wdS ∈ dayNamesLower ∧
    1 ≤ m ∧ m ≤ 12 ∧ lowerL moS = monthLower m ∧
    ws1 ≠ [] ∧ WsRun ws1 ∧ ws2 ≠ [] ∧ WsRun ws2 ∧ ws3 ≠ [] ∧ WsRun ws3 ∧
    DigitRun dayS ∧ 1 ≤ dayS.length ∧ dayS.length ≤ 2 ∧ d = natOfDigits dayS ∧
    DigitRun yearS ∧ yearS.length = 4 ∧ y = natOfDigits yearS ∧
    1 ≤ d ∧ d ≤ daysInMonth y m ∧ 1 ≤ y

theorem dropWhile_run_stop {p : Char → Bool} {xs : List Char} {y : Char}
    (hxs : ∀ x ∈ xs, p x = true) (hy : p y = false) (rest : List Char) :
    (xs ++ y :: rest).dropWhile p = y :: rest := by
  induction xs with
  | nil => simp [List.dropWhile_cons, hy]
  | cons a t ih =>
    simp only [List.cons_append, List.dropWhile_cons, hxs a (by simp), if_true]
    exact ih (fun x hx => hxs x (by simp [hx]))

/- Step soundness lemmas. -/

theorem takeAnyCI_sound {names : List (List Char)} :
    ∀ {l r : List Char}, takeAnyCI names l = some r →
      ∃ pre, l = pre ++ r ∧ lowerL pre ∈ names := by
  induction names with
  | nil => intro l r h; simp [takeAnyCI] at h
  | cons nm rest ih =>
    intro l r h
    rw [takeAnyCI] at h
    split at h
    · rename_i hp
      rw [Option.some.injEq] at h
      subst h
      rw [List.isPrefixOf_iff_prefix] at hp
      refine ⟨l.take nm.length, ?_, ?_⟩
      · rw [List.take_append_drop]
      · have hmt : lowerL (l.take nm.length) = (lowerL l).take nm.length :=
          List.map_take lowerC l nm.length
        rw [hmt, ← List.prefix_iff_eq_take.mp hp]
        exact List.mem_cons_self _ _
    · obtain ⟨pre, h1, h2⟩ := ih h
      exact ⟨pre, h1, List.mem_cons_of_mem _ h2⟩

theorem takeNameCI_sound {alts : List (List Char × Nat)} :
    ∀ {l r : List Char} {v : Nat}, takeNameCI alts l = some (v, r) →
      ∃ pre nm, (nm, v) ∈ alts ∧ l = pre ++ r ∧ lowerL pre = nm := by
  induction alts with
  | nil => intro l r v h; simp [takeNameCI] at h
  | cons p rest ih =>
    intro l r v h
    obtain ⟨nm, v0⟩ := p
    rw [takeNameCI] at h
    split at h
    · rename_i hp
      simp only [Option.some.injEq, Prod.mk.injEq] at h
      obtain ⟨hv, hr⟩ := h
      subst hv hr
      rw [List.isPrefixOf_iff_prefix] at hp
      refine ⟨l.take nm.length, nm, List.mem_cons_self _ _, ?_, ?_⟩
      · rw [List.take_append_drop]
      · have hmt : lowerL (l.take nm.length) = (lowerL l).take nm.length :=
          List.map_take lowerC l nm.length
        rw [hmt, ← List.prefix_iff_eq_take.mp hp]
    · obtain ⟨pre, nm', h1, h2, h3⟩ := ih h
      exact ⟨pre, nm', List.mem_cons_of_mem _ h1, h2, h3⟩

theorem expectC_sound {c : Char} : ∀ {l t : List Char},
    expectC c l = some t → l = c :: t := by
  intro l t h
  cases l with
  | nil => simp [expectC] at h
  | cons d t' =>
    simp only [expectC] at h
    split at h
    · rename_i hd
      rw [Option.some.injEq] at h
      subst hd h
      rfl
    · exact absurd h (by simp)

theorem takeWs1_sound : ∀ {l r : List Char}, takeWs1 l = some r →
    ∃ ws, l = ws ++ r ∧ ws ≠ [] ∧ WsRun ws := by
  intro l r h
  cases l with
  | nil => simp [takeWs1] at h
  | cons c t =>
    simp only [takeWs1] at h
    split at h
    · rename_i hc
      rw [Option.some.injEq] at h
      refine ⟨(c :: t).takeWhile isWsC, ?_, ?_, fun x hx => List.mem_takeWhile_imp hx⟩
      · rw [← h]
        exact (List.takeWhile_append_dropWhile _ _).symm
      · rw [List.takeWhile_cons, hc]
        simp
    · exact absurd h (by simp)

theorem takeDay_sound {l r : List Char} {d : Nat} (h : takeDay l = some (d, r)) :
    ∃ ds, l = ds ++ r ∧ DigitRun ds ∧ 1 ≤ ds.length ∧ ds.length ≤ 2 ∧
      d = natOfDigits ds ∧ 1 ≤ d ∧ d ≤ 31 := by
  simp only [takeDay] at h
  split at h
  · rename_i hcond
    simp only [Option.some.injEq, Prod.mk.injEq] at h
    obtain ⟨hd, hr⟩ := h
    subst hd
    refine ⟨l.takeWhile isDigitC, ?_, fun x hx => List.mem_takeWhile_imp hx,
      hcond.1, hcond.2.1, rfl, hcond.2.2.1, hcond.2.2.2⟩
    rw [← hr, drop_takeWhile_length, List.takeWhile_append_dropWhile]
  · exact absurd h (by simp)

theorem takeYear4_sound {l r : List Char} {y : Nat} (h : takeYear4 l = some (y, r)) :
    ∃ ys, l = ys ++ r ∧ DigitRun ys ∧ ys.length = 4 ∧ y = natOfDigits ys := by
  simp only [takeYear4] at h
  split at h
  · rename_i hcond
    simp only [Option.some.injEq, Prod.mk.injEq] at h
    obtain ⟨hy, hr⟩ := h
    subst hy
    refine ⟨l.takeWhile isDigitC, ?_, fun x hx => List.mem_takeWhile_imp hx, hcond, rfl⟩
    rw [← hr, hcond, ← hcond, drop_takeWhile_length, List.takeWhile_append_dropWhile]
  · exact absurd h (by simp)

theorem monthAlts_spec : ∀ p ∈ monthAlts, p.1 = monthLower p.2 ∧ 1 ≤ p.2 ∧ p.2 ≤ 12 := by
  decide

theorem parse_date_sound {s iso : String} (h : parse_date s = some iso) :
    ∃ y m d, LongDateGrammar s y m d ∧ iso = isoStr y m d := by
  rw [parse_date] at h
  simp only [bind, Option.bind_eq_some, pure] at h
  obtain ⟨r1, h1, r2, h2, r3, h3, ⟨m, r4⟩, h4, r5, h5, ⟨d, r6⟩, h6, r7, h7,
    r8, h8, ⟨y, r9⟩, h9, hfin⟩ := h
  dsimp only at h5 h7 hfin
  split at hfin
  · rename_i hcond
    obtain ⟨hr9, hy1, hdm⟩ := hcond
    rw [Option.some.injEq] at hfin
    obtain ⟨wdS, hw1, hw2⟩ := takeAnyCI_sound h1
    have hr1 : r1 = ',' :: r2 := expectC_sound h2
    obtain ⟨ws1, hws1eq, hws1ne, hws1run⟩ := takeWs1_sound h3
    obtain ⟨moS, mo, hmoMem, hmoEq, hmoLower⟩ := takeNameCI_sound h4
    obtain ⟨ws2, hws2eq, hws2ne, hws2run⟩ := takeWs1_sound h5
    obtain ⟨dayS, hdayEq, hdayRun, hday1, hday2, hdval, hdge, hd31⟩ := takeDay_sound h6
    have hr6 : r6 = ',' :: r7 := expectC_sound h7
    obtain ⟨ws3, hws3eq, hws3ne, hws3run⟩ := takeWs1_sound h8
    obtain ⟨yearS, hyearEq, hyearRun, hylen, hyval⟩ := takeYear4_sound h9
    have hmo2 := monthAlts_spec (mo, m) hmoMem
    refine ⟨y, m, d,
      ⟨wdS, moS, ws1, ws2, ws3, dayS, yearS, ?_, hw2, hmo2.2.1, hmo2.2.2, ?_,
        hws1ne, hws1run, hws2ne, hws2run, hws3ne, hws3run,
        hdayRun, hday1, hday2, hdval, hyearRun, hylen, hyval, hdge, hdm, hy1⟩,
      hfin.symm⟩
    · rw [hw1, hr1, hws1eq, hmoEq, hws2eq, hdayEq, hr6, hws3eq, hyearEq, hr9,
        List.append_nil]
    · rw [hmoLower]
      exact hmo2.1
  · exact absurd hfin (by simp)

/- Step completeness lemmas, and the alternation-uniqueness facts that
make the name alternations deterministic. -/

theorem dayNames_pairwise :
    ∀ a ∈ dayNamesLower, ∀ b ∈ dayNamesLower, a <+: b → a = b := by decide

theorem dayNames_no_comma : ∀ a ∈ dayNamesLower, ',' ∉ a := by decide

theorem monthNames_pairwise :
    ∀ a ∈ monthAlts.map Prod.fst, ∀ b ∈ monthAlts.map Prod.fst, a <+: b → a = b := by
  decide

theorem monthNames_no_ws :
    ∀ a ∈ monthAlts.map Prod.fst, ∀ c ∈ a, isWsC c = false := by decide

theorem monthAlts_name_inj :
    ∀ p ∈ monthAlts, ∀ q ∈ monthAlts, p.1 = q.1 → p = q := by decide

theorem monthLower_mem : ∀ m, 1 ≤ m → m ≤ 12 → (monthLower m, m) ∈ monthAlts := by
  intro m h1 h2
  interval_cases m <;> decide

/-- In a pairwise non-prefix name list whose names avoid the separator
character `c`, at most one name can match at a position whose text is a
name followed by `c`. -/
theorem name_uniq_of_sep {names : List (List Char)} {nm : List Char} {c : Char}
    {X : List Char}
    (hpair : ∀ a ∈ names, ∀ b ∈ names, a <+: b → a = b)
    (hc : ∀ a ∈ names, c ∉ a)
    (hmem : nm ∈ names) :
    ∀ nm' ∈ names, nm'.isPrefixOf (nm ++ c :: X) = true → nm' = nm := by
  intro nm' hmem' hp
  rw [List.isPrefixOf_iff_prefix] at hp
  by_cases hlen : nm'.length ≤ nm.length
  · exact hpair nm' hmem' nm hmem
      (List.prefix_of_prefix_length_le hp (List.prefix_append _ _) hlen)
  · exfalso
    have h2 : nm ++ [c] <+: nm ++ c :: X := by
      refine ⟨X, ?_⟩
      simp
    have hlen2 : (nm ++ [c]).length ≤ nm'.length := by
      simp only [List.length_append]
      simp
      omega
    have h3 : nm ++ [c] <+: nm' := List.prefix_of_prefix_length_le h2 hp hlen2
    exact hc nm' hmem' (h3.subset (by simp))

theorem takeAnyCI_complete {names : List (List Char)} {pre r : List Char}
    (hmem : lowerL pre ∈ names)
    (huniq : ∀ nm' ∈ names,
      nm'.isPrefixOf (lowerL (pre ++ r)) = true → nm' = lowerL pre) :
    takeAnyCI names (pre ++ r) = some r := by
  induction names with
  | nil => simp at hmem
  | cons n0 rest ih =>
    rw [takeAnyCI]
    by_cases h0 : n0.isPrefixOf (lowerL (pre ++ r)) = true
    · rw [if_pos h0]
      have hn0 : n0 = lowerL pre := huniq n0 (List.mem_cons_self _ _) h0
      rw [hn0, Option.some.injEq]
      have hlen : (lowerL pre).length = pre.length := List.length_map _ _
      rw [hlen, List.drop_left]
    · rw [if_neg h0]
      cases List.mem_cons.mp hmem with
      | inl heq =>
        exfalso
        apply h0
        rw [← heq, List.isPrefixOf_iff_prefix]
        unfold lowerL
        rw [List.map_append]
        exact List.prefix_append _ _
      | inr hmemr =>
        exact ih hmemr (fun nm' h1 h2 => huniq nm' (List.mem_cons_of_mem _ h1) h2)

theorem takeNameCI_complete {alts : List (List Char × Nat)} {pre r : List Char}
    {v : Nat}
    (hmem : (lowerL pre, v) ∈ alts)
    (huniq : ∀ p ∈ alts,
      p.1.isPrefixOf (lowerL (pre ++ r)) = true → p = (lowerL pre, v)) :
    takeNameCI alts (pre ++ r) = some (v, r) := by
  induction alts with
  | nil => simp at hmem
  | cons p0 rest ih =>
    obtain ⟨n0, v0⟩ := p0
    rw [takeNameCI]
    by_cases h0 : n0.isPrefixOf (lowerL (pre ++ r)) = true
    · rw [if_pos h0]
      have hp0 := huniq (n0, v0) (List.mem_cons_self _ _) h0
      rw [Prod.mk.injEq] at hp0
      obtain ⟨hn0, hv0⟩ := hp0
      subst hv0
      rw [hn0, Option.some.injEq, Prod.mk.injEq]
      refine ⟨rfl, ?_⟩
      have hlen : (lowerL pre).length = pre.length := List.length_map _ _
      rw [hlen, List.drop_left]
    · rw [if_neg h0]
      cases List.mem_cons.mp hmem with
      | inl heq =>
        exfalso
        apply h0
        have hn0 : n0 = lowerL pre := by
          rw [Prod.mk.injEq] at heq
          exact heq.1.symm
        rw [hn0, List.isPrefixOf_iff_prefix]
        unfold lowerL
        rw [List.map_append]
        exact List.prefix_append _ _
      | inr hmemr =>
        exact ih hmemr (fun p h1 h2 => huniq p (List.mem_cons_of_mem _ h1) h2)

theorem takeWs1_complete {ws : List Char} (hne : ws ≠ []) (hws : WsRun ws)
    {y : Char} (hy : isWsC y = false) (rest : List Char) :
    takeWs1 (ws ++ y :: rest) = some (y :: rest) := by
  cases ws with
  | nil => exact absurd rfl hne
  | cons w0 ws' =>
    have hw0 : isWsC w0 = true := hws w0 (by simp)
    simp only [List.cons_append, takeWs1]
    rw [if_pos hw0, Option.some.injEq]
    rw [show w0 :: (ws' ++ y :: rest) = (w0 :: ws') ++ y :: rest from by simp]
    exact dropWhile_run_stop hws hy rest

theorem takeDay_complete {ds : List Char} (hds : DigitRun ds) (h1 : 1 ≤ ds.length)
    (h2 : ds.length ≤ 2) (hge : 1 ≤ natOfDigits ds) (hle : natOfDigits ds ≤ 31)
    (rest : List Char) :
    takeDay (ds ++ ',' :: rest) = some (natOfDigits ds, ',' :: rest) := by
  have htw : (ds ++ ',' :: rest).takeWhile isDigitC = ds :=
    takeWhile_run_stop hds (by decide) rest
  simp only [takeDay, htw]
  rw [if_pos ⟨h1, h2, hge, hle⟩, Option.some.injEq, Prod.mk.injEq]
  exact ⟨rfl, List.drop_left _ _⟩

theorem takeYear4_complete {ys : List Char} (hys : DigitRun ys)
    (hlen : ys.length = 4) :
    takeYear4 ys = some (natOfDigits ys, []) := by
  have htw : ys.takeWhile isDigitC = ys := takeWhile_run_all hys
  simp only [takeYear4, htw]
  rw [if_pos hlen, Option.some.injEq, Prod.mk.injEq]
  exact ⟨rfl, List.drop_length _⟩

theorem daysInMonth_le_31 (y m : Nat) : daysInMonth y m ≤ 31 := by
  unfold daysInMonth
  split
  · split <;> omega
  · split <;> omega

theorem parse_date_complete {s : String} {y m d : Nat} (hg : LongDateGrammar s y m d) :
    parse_date s = some (isoStr y m d) := by
  obtain ⟨wdS, moS, ws1, ws2, ws3, dayS, yearS, heq, hwd, hm1, hm2, hmo,
    hws1ne, hws1, hws2ne, hws2, hws3ne, hws3,
    hdayRun, hday1, hday2, hdval, hyearRun, hylen, hyval, hdge, hdle, hyge⟩ := hg
  obtain ⟨w0, ws2T, rfl⟩ : ∃ w0 wt, ws2 = w0 :: wt := by
    cases ws2 with
    | nil => exact absurd rfl hws2ne
    | cons a b => exact ⟨a, b, rfl⟩
  have hw0 : isWsC w0 = true := hws2 w0 (by simp)
  have hmoAlt : (lowerL moS, m) ∈ monthAlts := by
    rw [hmo]
    exact monthLower_mem m hm1 hm2
  have hmoMap : lowerL moS ∈ monthAlts.map Prod.fst :=
    List.mem_map_of_mem _ hmoAlt
  have hmoHead : ∃ mo0 moT, moS = mo0 :: moT ∧ isWsC mo0 = false := by
    cases hcase : moS with
    | nil =>
      exfalso
      rw [hcase] at hmoMap
      have hnot : ([] : List Char) ∉ monthAlts.map Prod.fst := by decide
      exact hnot hmoMap
    | cons mo0 moT =>
      refine ⟨mo0, moT, rfl, ?_⟩
      by_contra hx
      have hx' : isWsC mo0 = true := by
        cases hxx : isWsC mo0
        · exact absurd hxx hx
        · rfl
      have hmem0 : lowerC mo0 ∈ lowerL moS := by
        rw [hcase]
        simp [lowerL]
      have hno := monthNames_no_ws _ hmoMap (lowerC mo0) hmem0
      rw [isWsC_lowerC_self hx', hx'] at hno
      exact Bool.noConfusion hno
  obtain ⟨mo0, moT, hmoDec, hmo0⟩ := hmoHead
  have hdayHead : ∃ d0 dT, dayS = d0 :: dT ∧ isWsC d0 = false := by
    cases hcase : dayS with
    | nil => rw [hcase] at hday1; simp at hday1
    | cons d0 dT =>
      refine ⟨d0, dT, rfl, isWsC_of_isDigitC (hdayRun d0 ?_)⟩
      rw [hcase]
      simp
  obtain ⟨d0, dT, hdayDec, hd0⟩ := hdayHead
  have hyearHead : ∃ y0 yT, yearS = y0 :: yT ∧ isWsC y0 = false := by
    cases hcase : yearS with
    | nil => rw [hcase] at hylen; simp at hylen
    | cons y0 yT =>
      refine ⟨y0, yT, rfl, isWsC_of_isDigitC (hyearRun y0 ?_)⟩
      rw [hcase]
      simp
  obtain ⟨y0, yT, hyearDec, hy0⟩ := hyearHead
  have hstep1 : takeAnyCI dayNamesLower
      (wdS ++ ',' :: (ws1 ++ (moS ++ ((w0 :: ws2T) ++ (dayS ++ ',' :: (ws3 ++ yearS))))))
      = some (',' :: (ws1 ++ (moS ++ ((w0 :: ws2T) ++ (dayS ++ ',' :: (ws3 ++ yearS)))))) := by
    apply takeAnyCI_complete hwd
    intro nm' hm' hp
    have hlow : lowerL (wdS ++ ',' ::
          (ws1 ++ (moS ++ ((w0 :: ws2T) ++ (dayS ++ ',' :: (ws3 ++ yearS))))))
        = lowerL wdS ++ ',' ::
          lowerL (ws1 ++ (moS ++ ((w0 :: ws2T) ++ (dayS ++ ',' :: (ws3 ++ yearS))))) := by
      simp [lowerL, show lowerC ',' = ',' from by decide]
    rw [hlow] at hp
    exact name_uniq_of_sep dayNames_pairwise dayNames_no_comma hwd nm' hm' hp
  have hstep2 : expectC ','
      (',' :: (ws1 ++ (moS ++ ((w0 :: ws2T) ++ (dayS ++ ',' :: (ws3 ++ yearS))))))
      = some (ws1 ++ (moS ++ ((w0 :: ws2T) ++ (dayS ++ ',' :: (ws3 ++ yearS))))) := by
    simp [expectC]
  have hstep3 : takeWs1 (ws1 ++ (moS ++ ((w0 :: ws2T) ++ (dayS ++ ',' :: (ws3 ++ yearS)))))
      = some (moS ++ ((w0 :: ws2T) ++ (dayS ++ ',' :: (ws3 ++ yearS)))) := by
    have hcast : moS ++ ((w0 :: ws2T) ++ (dayS ++ ',' :: (ws3 ++ yearS)))
        = mo0 :: (moT ++ ((w0 :: ws2T) ++ (dayS ++ ',' :: (ws3 ++ yearS)))) := by
      rw [hmoDec]
      rfl
    rw [hcast]
    exact takeWs1_complete hws1ne hws1 hmo0 _
  have hstep4 : takeNameCI monthAlts
      (moS ++ ((w0 :: ws2T) ++ (dayS ++ ',' :: (ws3 ++ yearS))))
      = some (m, (w0 :: ws2T) ++ (dayS ++ ',' :: (ws3 ++ yearS))) := by
    apply takeNameCI_complete hmoAlt
    intro p hpmem hp
    have hlow : lowerL (moS ++ ((w0 :: ws2T) ++ (dayS ++ ',' :: (ws3 ++ yearS))))
        = lowerL moS ++ w0 :: lowerL (ws2T ++ (dayS ++ ',' :: (ws3 ++ yearS))) := by
      simp [lowerL, isWsC_lowerC_self hw0]
    rw [hlow] at hp
    have hname : p.1 = lowerL moS := by
      refine name_uniq_of_sep monthNames_pairwise ?_ hmoMap p.1
        (List.mem_map_of_mem _ hpmem) hp
      intro a ha hin
      have hfalse := monthNames_no_ws a ha w0 hin
      rw [hw0] at hfalse
      exact Bool.noConfusion hfalse
    exact monthAlts_name_inj p hpmem (lowerL moS, m) hmoAlt hname
  have hstep5 : takeWs1 ((w0 :: ws2T) ++ (dayS ++ ',' :: (ws3 ++ yearS)))
      = some (dayS ++ ',' :: (ws3 ++ yearS)) := by
    have hcast : dayS ++ ',' :: (ws3 ++ yearS) = d0 :: (dT ++ ',' :: (ws3 ++ yearS)) := by
      rw [hdayDec]
      rfl
    rw [hcast]
    exact takeWs1_complete (by simp) hws2 hd0 _
  have hstep6 : takeDay (dayS ++ ',' :: (ws3 ++ yearS))
      = some (d, ',' :: (ws3 ++ yearS)) := by
    rw [hdval]
    refine takeDay_complete hdayRun hday1 hday2 ?_ ?_ _
    · rw [← hdval]
      exact hdge
    · rw [← hdval]
      exact hdle.trans (daysInMonth_le_31 y m)
  have hstep7 : expectC ',' (',' :: (ws3 ++ yearS)) = some (ws3 ++ yearS) := by
    simp [expectC]
  have hstep8 : takeWs1 (ws3 ++ yearS) = some yearS := by
    rw [hyearDec]
    exact takeWs1_complete hws3ne hws3 hy0 _
  have hstep9 : takeYear4 yearS = some (y, []) := by
    rw [hyval]
    exact takeYear4_complete hyearRun hylen
  rw [parse_date, heq]
  simp only [bind, Option.bind_eq_some, pure]
  refine ⟨_, hstep1, _, hstep2, _, hstep3, (m, _), hstep4, _, hstep5,
    (d, _), hstep6, _, hstep7, _, hstep8, (y, []), hstep9, ?_⟩
  rw [if_pos ⟨rfl, hyge, hdle⟩]

/-- Full characterisation of the strptime model: success exactly on the
grammar, and the result is the ISO rendering of the parsed components. -/
theorem parse_date_iff (s iso : String) :
    parse_date s = some iso ↔
      ∃ y m d, LongDateGrammar s y m d ∧ iso = isoStr y m d := by
  constructor
  · exact parse_date_sound
  · intro ⟨y, m, d, hg, hiso⟩
    rw [hiso]
    exact parse_date_complete hg

/- ### Pipeline-level facts -/

theorem extractEvents_skip {a : Anchor} (h : Root.processAnchor a = none)
    (anchors : List Anchor) :
    Root.extractEvents (a :: anchors) = Root.extractEvents anchors := by
  unfold Root.extractEvents
  rw [List.filterMap_cons, h]

theorem Root_processAnchor_date_fail {a : Anchor} {block : String} {dm : List Char}
    (hpar : a.parent = some block) (hfind : findLongDate block.data = some dm)
    (hparse : parse_long_date (String.mk dm) = none) :
    Root.processAnchor a = none := by
  simp only [Root.processAnchor, hpar, hfind, hparse]
  split
  · rfl
  · split
    · rfl
    · split
      · rfl
      · rfl

theorem Root_processAnchor_fields {a : Anchor} {r : Row}
    (h : Root.processAnchor a = some r) :
    r.is_museum = "no" ∧ r.museum_name = "" ∧ r.event_type = "" ∧ r.notes = marker := by
  simp only [Root.processAnchor] at h
  split at h
  · exact absurd h (by simp)
  · split at h
    · exact absurd h (by simp)
    · split at h
      · exact absurd h (by simp)
      · split at h
        · exact absurd h (by simp)
        · split at h
          · exact absurd h (by simp)
          · split at h
            · exact absurd h (by simp)
            · split at h
              · exact absurd h (by simp)
              · rw [Option.some.injEq] at h
                subst h
                exact ⟨rfl, rfl, rfl, rfl⟩

theorem Scripts_processAnchor_fields {a : Anchor} {r : Row}
    (h : Scripts.processAnchor a = some r) :
    r.is_museum = "no" ∧ r.museum_name = "" ∧ r.event_type = "" ∧ r.notes = marker := by
  simp only [Scripts.processAnchor] at h
  split at h
  · exact absurd h (by simp)
  · split at h
    · exact absurd h (by simp)
    · split at h
      · exact absurd h (by simp)
      · split at h
        case isTrue =>
          split at h
          · exact absurd h (by simp)
          · split at h
            · exact absurd h (by simp)
            · split at h
              · exact absurd h (by simp)
              · split at h
                · exact absurd h (by simp)
                · split at h
                  · exact absurd h (by simp)
                  · rw [Option.some.injEq] at h
                    subst h
                    exact ⟨rfl, rfl, rfl, rfl⟩
        case isFalse =>
          split at h
          · exact absurd h (by simp)
          · split at h
            · exact absurd h (by simp)
            · split at h
              · exact absurd h (by simp)
              · split at h
                · exact absurd h (by simp)
                · split at h
                  · exact absurd h (by simp)
                  · rw [Option.some.injEq] at h
                    subst h
                    exact ⟨rfl, rfl, rfl, rfl⟩

theorem Root_mainEvents_mem {r : Row} {anchors : List Anchor}
    (h : r ∈ Root.mainEvents anchors) : ∃ a, Root.processAnchor a = some r := by
  unfold Root.mainEvents at h
  rw [mem_sortByKeys] at h
  unfold dedupBy at h
  have h2 := mem_of_mem_dedupSeen h
  rw [Root.extractEvents, List.mem_filterMap] at h2
  obtain ⟨a, _, ha⟩ := h2
  exact ⟨a, ha⟩

theorem Scripts_mainEvents_mem {r : Row} {anchors : List Anchor}
    (h : r ∈ Scripts.mainEvents anchors) : ∃ a, Scripts.processAnchor a = some r := by
  unfold Scripts.mainEvents at h
  rw [mem_sortByKeys] at h
  unfold dedupBy at h
  have h2 := mem_of_mem_dedupSeen h
  rw [Scripts.extractEvents, List.mem_filterMap] at h2
  obtain ⟨a, _, ha⟩ := h2
  exact ⟨a, ha⟩

/- ### Specification-side predicates for the classifier -/

/-- `term` occurs (case-insensitively) in `s`: the relational rendering
of the classifier's lower-cased substring tests. -/
def OccursIn (term s : String) : Prop := term.data <:+: (pyLower s).data

def FigureMatch (title block : String) : Prop :=
  ∃ term ∈ figure_terms, OccursIn term title ∨ OccursIn term block

def DrinkMatch (title block : String) : Prop :=
  OccursIn "madrone" title ∨ OccursIn "madrone" block ∨
    (OccursIn "drink" title ∧ OccursIn "draw" title) ∨
    (OccursIn "drink" block ∧ OccursIn "draw" block)

theorem figure_cond_iff (title block : String) :
    (figure_terms.any fun term =>
        substrB term (pyLower title) || substrB term (pyLower block)) = true
      ↔ FigureMatch title block := by
  unfold FigureMatch OccursIn
  rw [List.any_eq_true]
  simp only [Bool.or_eq_true, substrB_iff]

theorem drink_cond_iff (title block : String) :
    (substrB "madrone" (pyLower title) || substrB "madrone" (pyLower block) ||
      (substrB "drink" (pyLower title) && substrB "draw" (pyLower title)) ||
      (substrB "drink" (pyLower block) && substrB "draw" (pyLower block))) = true
      ↔ DrinkMatch title block := by
  unfold DrinkMatch OccursIn
  simp only [Bool.or_eq_true, Bool.and_eq_true, substrB_iff]
  tauto

/- ### Merge helper facts -/

theorem mem_cleanBase {base : List Row} {r : Row} (h : r ∈ Merge.cleanBase base) :
    substrB marker r.notes = false ∧ r ∈ base := by
  unfold Merge.cleanBase at h
  rw [List.mem_filter] at h
  exact ⟨by simpa using h.2, h.1⟩

theorem cleanBase_eq_spec (base : List Row) :
    Merge.cleanBase base
      = base.filter (fun r => !(decide (marker.data <:+: r.notes.data))) := by
  unfold Merge.cleanBase
  apply List.filter_congr
  intro r _
  congr 1
  by_cases h : marker.data <:+: r.notes.data
  · rw [(substrB_iff _ _).mpr h, decide_eq_true h]
  · have h1 : substrB marker r.notes = false := by
      cases hx : substrB marker r.notes
      · rfl
      · exact absurd ((substrB_iff _ _).mp hx) h
    rw [h1, decide_eq_false h]

/- ### URL helper facts -/

theorem substr_host_slash (X : List Char) :
    infixB ("sketchboard.co" : String).data
      ("https://www.sketchboard.co".data ++ X) = true := by
  rw [infixB_iff]
  refine ⟨"https://www.".data, X, ?_⟩
  have h : "https://www.sketchboard.co".data
      = "https://www.".data ++ "sketchboard.co".data := by decide
  rw [h]

theorem substr_host_root (X : List Char) :
    infixB ("sketchboard.co" : String).data
      ("https://www.sketchboard.co/".data ++ X) = true := by
  rw [infixB_iff]
  refine ⟨"https://www.".data, '/' :: X, ?_⟩
  have h : "https://www.sketchboard.co/".data
      = ("https://www.".data ++ "sketchboard.co".data) ++ ['/'] := by decide
  rw [h]
  simp [List.append_assoc]

theorem Root_processAnchor_skip_of_filter {a : Anchor}
    (h : substrB "sketchboard.co" (abs_url a.href) = false) :
    Root.processAnchor a = none := by
  simp only [Root.processAnchor, h]
  split
  · rfl
  · split
    · rfl
    · rfl

/- ### Concrete fixtures used by the claim theorems -/

def c1A : Row :=
  { date := "2026-02-17", venue := "Venue A", title := "Life Drawing",
    category := "Figure Drawing", event_type := "", start_time := "6:30PM",
    end_time := "8:30PM", price_text := "", is_museum := "no", museum_name := "",
    event_url := "u1", notes := "n" }

def c1B : Row :=
  { date := "2026-02-17", venue := "Venue B", title := "Life Drawing",
    category := "Figure Drawing", event_type := "", start_time := "6:30PM",
    end_time := "8:30PM", price_text := "", is_museum := "no", museum_name := "",
    event_url := "u2", notes := "n" }

def c2stale : Row :=
  { date := "2026-01-06", venue := "Sketchboard @ Madrone Art Bar",
    title := "Drink & Draw (old)", category := "Drink & Draw", event_type := "",
    start_time := "6:30PM", end_time := "8:30PM", price_text := "$15",
    is_museum := "no", museum_name := "",
    event_url := "https://www.sketchboard.co/events/old",
    notes := "Auto-imported from sketchboard.co/schedule" }

def c2unrel : Row :=
  { date := "2026-02-10", venue := "City Museum", title := "Watercolor Workshop",
    category := "Workshop", event_type := "class", start_time := "1:00PM",
    end_time := "3:00PM", price_text := "$20", is_museum := "yes",
    museum_name := "City Museum", event_url := "https://museum.example/w",
    notes := "manually entered" }

def c2new : Row :=
  { date := "2026-02-17", venue := "Sketchboard @ Madrone Art Bar",
    title := "Madrone Drink & Draw", category := "Drink & Draw", event_type := "",
    start_time := "6:30PM", end_time := "8:30PM",
    price_text := "$15 CASH ONLY @ the door (per Sketchboard schedule)",
    is_museum := "no", museum_name := "",
    event_url := "https://www.sketchboard.co/events/madrone-jan",
    notes := "Auto-imported from sketchboard.co/schedule" }

def c6stale : Row :=
  { date := "2026-01-13", venue := "Sketchboard @ Madrone Art Bar",
    title := "Drink & Draw (stale)", category := "Drink & Draw", event_type := "",
    start_time := "6:30PM", end_time := "8:30PM", price_text := "$15",
    is_museum := "no", museum_name := "",
    event_url := "https://www.sketchboard.co/events/stale",
    notes := "Auto-imported from sketchboard.co/schedule" }

def c6unrel : Row :=
  { date := "2026-03-01", venue := "Gallery North", title := "Open Critique",
    category := "Critique", event_type := "", start_time := "5:00PM",
    end_time := "7:00PM", price_text := "free", is_museum := "no",
    museum_name := "", event_url := "https://gallerynorth.example/crit",
    notes := "added by hand" }

/- ### Claim theorems -/

/-- Claim C1 (counterexample): the claim says two records produced in the
same run are identified as duplicates exactly when they agree on all of
(date, venue lower-cased, title lower-cased trimmed, start_time); but the
root extractor's run key omits the venue, so two records that differ in
venue (hence do not agree on the four components) are still collapsed to
the first one. -/
theorem C1_counterexample :
    dedupBy Root.keyRun [c1A, c1B] = [c1A] ∧
    ¬ (c1A.date = c1B.date ∧
        pyStrip (pyLower c1A.venue) = pyStrip (pyLower c1B.venue) ∧
        pyStrip (pyLower c1A.title) = pyStrip (pyLower c1B.title) ∧
        pyStrip c1A.start_time = pyStrip c1B.start_time) := by
  decide

/-- Claim C1 (amended): within a run, the root extractor identifies two
records as duplicates exactly when they agree on (date, title
lower-cased stripped, start_time stripped); the scripts variant exactly
when they agree on (date, title lower-cased stripped); only the merger
uses the four-component key (date, venue lower-cased stripped, title
lower-cased stripped, start_time stripped). -/
theorem C1_amended :
    (∀ r1 r2 : Row, dedupBy Root.keyRun [r1, r2]
        = if r1.date = r2.date ∧
             pyStrip (pyLower r1.title) = pyStrip (pyLower r2.title) ∧
             pyStrip r1.start_time = pyStrip r2.start_time
          then [r1] else [r1, r2]) ∧
    (∀ r1 r2 : Row, dedupBy Scripts.keyRun [r1, r2]
        = if r1.date = r2.date ∧
             pyStrip (pyLower r1.title) = pyStrip (pyLower r2.title)
          then [r1] else [r1, r2]) ∧
    (∀ r1 r2 : Row, dedupBy Merge.key [r1, r2]
        = if r1.date = r2.date ∧
             pyStrip (pyLower r1.venue) = pyStrip (pyLower r2.venue) ∧
             pyStrip (pyLower r1.title) = pyStrip (pyLower r2.title) ∧
             pyStrip r1.start_time = pyStrip r2.start_time
          then [r1] else [r1, r2]) := by
  refine ⟨fun r1 r2 => ?_, fun r1 r2 => ?_, fun r1 r2 => ?_⟩ <;> rw [dedupBy_pair]
  · refine if_congr ?_ rfl rfl
    simp only [Root.keyRun, Prod.mk.injEq]
    exact ⟨fun h => ⟨h.1.symm, h.2.1.symm, h.2.2.symm⟩,
      fun h => ⟨h.1.symm, h.2.1.symm, h.2.2.symm⟩⟩
  · refine if_congr ?_ rfl rfl
    simp only [Scripts.keyRun, Prod.mk.injEq]
    exact ⟨fun h => ⟨h.1.symm, h.2.symm⟩, fun h => ⟨h.1.symm, h.2.symm⟩⟩
  · refine if_congr ?_ rfl rfl
    simp only [Merge.key, Prod.mk.injEq]
    exact ⟨fun h => ⟨h.1.symm, h.2.1.symm, h.2.2.1.symm, h.2.2.2.symm⟩,
      fun h => ⟨h.1.symm, h.2.1.symm, h.2.2.1.symm, h.2.2.2.symm⟩⟩

/-- Claim C2: on every merge, every base row whose notes contain the
provenance marker is removed before the union (the cleaned base contains
no marked row, and only rows of the base); and in the concrete
base-plus-auto scenario the merged output is exactly the unrelated row
plus the new Sketchboard row. -/
theorem C2_merge_replaces_stale :
    (∀ (base : List Row) (r : Row), r ∈ Merge.cleanBase base →
      substrB marker r.notes = false ∧ r ∈ base) ∧
    Merge.mergeRows [c2stale, c2unrel] [c2new] = [c2unrel, c2new] := by
  refine ⟨fun base r h => mem_cleanBase h, by decide⟩

/-- Claim C2 (witness). -/
theorem C2_witness :
    substrB marker c2unrel.notes = false ∧ c2unrel ∈ [c2stale, c2unrel] :=
  C2_merge_replaces_stale.1 [c2stale, c2unrel] c2unrel (by decide)

/-- Claim C3: the classifier is a pure case-insensitive function of title
and block text: it returns the Figure Drawing triple exactly when one of
the figure terms occurs in either lowered string, the Drink and Draw
triple exactly when no figure term occurs but "madrone" occurs in either
string or one string contains both "drink" and "draw", and the sentinel
otherwise; with the three concrete evaluations of the claim. -/
theorem C3_classifier :
    (∀ title block : String,
      (classify_event title block
          = some ("Figure Drawing", "Sketchboard (Figure Session)", "")
        ↔ FigureMatch title block) ∧
      (classify_event title block
          = some ("Drink & Draw", "Sketchboard @ Madrone Art Bar",
              "$15 CASH ONLY @ the door (per Sketchboard schedule)")
        ↔ ¬ FigureMatch title block ∧ DrinkMatch title block) ∧
      (classify_event title block = none
        ↔ ¬ FigureMatch title block ∧ ¬ DrinkMatch title block)) ∧
    classify_event "Life Drawing Session" "..."
      = some ("Figure Drawing", "Sketchboard (Figure Session)", "") ∧
    classify_event "Drink & Draw Night" "..."
      = some ("Drink & Draw", "Sketchboard @ Madrone Art Bar",
          "$15 CASH ONLY @ the door (per Sketchboard schedule)") ∧
    classify_event "Pottery Class" "no keywords here" = none := by
  refine ⟨fun title block => ?_, by decide, by decide, by decide⟩
  have hf := figure_cond_iff title block
  have hd := drink_cond_iff title block
  unfold classify_event
  by_cases h1 : (figure_terms.any fun term =>
      substrB term (pyLower title) || substrB term (pyLower block)) = true
  · rw [if_pos h1]
    have hfig := hf.mp h1
    refine ⟨⟨fun _ => hfig, fun _ => rfl⟩,
      ⟨fun hco => absurd hco (by decide), fun hc => absurd hfig hc.1⟩,
      ⟨fun hco => absurd hco (by simp), fun hc => absurd hfig hc.1⟩⟩
  · rw [if_neg h1]
    have hnf : ¬ FigureMatch title block := fun hc => h1 (hf.mpr hc)
    by_cases h2 : (substrB "madrone" (pyLower title) ||
        substrB "madrone" (pyLower block) ||
        (substrB "drink" (pyLower title) && substrB "draw" (pyLower title)) ||
        (substrB "drink" (pyLower block) && substrB "draw" (pyLower block))) = true
    · rw [if_pos h2]
      exact ⟨⟨fun hco => absurd hco (by decide), fun hc => absurd hc hnf⟩,
        ⟨fun _ => ⟨hnf, hd.mp h2⟩, fun _ => rfl⟩,
        ⟨fun hco => absurd hco (by simp), fun hc => absurd (hd.mp h2) hc.2⟩⟩
    · rw [if_neg h2]
      have hnd : ¬ DrinkMatch title block := fun hc => h2 (hd.mpr hc)
      exact ⟨⟨fun hco => absurd hco (by simp), fun hc => absurd hc hnf⟩,
        ⟨fun hco => absurd hco (by simp), fun hc => absurd hc.2 hnd⟩,
        ⟨fun _ => ⟨hnf, hnd⟩, fun _ => rfl⟩⟩

/-- Claim C5: `parse_time_range` on "6:30 PM 8:30 PM" yields
("6:30PM", "8:30PM"), and it returns the empty pair exactly when the
whitespace-normalised input contains no pair of whitespace-separated
12-hour clock tokens (so absence of the pattern is never an error). -/
theorem C5_parse_time_range :
    parse_time_range "6:30 PM 8:30 PM" = ("6:30PM", "8:30PM") ∧
    (∀ s : String, parse_time_range s = ("", "") ↔ ¬ ContainsTimePair s) :=
  ⟨by decide, parse_time_range_empty_iff⟩

/-- Claim C6: an absent base or auto file is read as the empty row list;
merging an empty auto file against any base yields exactly the base's
rows whose notes lack the provenance marker, de-duplicated and sorted;
and on a concrete two-row base with one stale row the dataset shrinks to
the single unrelated row. -/
theorem C6_merge_absent_files :
    Merge.read_csv none = [] ∧
    (∀ base : List Row, Merge.mergeRows base []
      = sortByKeys Merge.sortKeyM (dedupBy Merge.key
          (base.filter (fun r => !(decide (marker.data <:+: r.notes.data)))))) ∧
    Merge.mainMerge (some [c6stale, c6unrel]) none = [c6unrel] := by
  refine ⟨rfl, fun base => ?_, by decide⟩
  rw [Merge.mergeRows, List.append_nil, cleanBase_eq_spec]

/-- Claim C7: first-seen de-duplication is idempotent for the run key of
each extraction script and for the merge key. -/
theorem C7_dedup_idempotent :
    (∀ l : List Row, dedupBy Root.keyRun (dedupBy Root.keyRun l)
        = dedupBy Root.keyRun l) ∧
    (∀ l : List Row, dedupBy Scripts.keyRun (dedupBy Scripts.keyRun l)
        = dedupBy Scripts.keyRun l) ∧
    (∀ l : List Row, dedupBy Merge.key (dedupBy Merge.key l)
        = dedupBy Merge.key l) :=
  ⟨fun l => dedupBy_idem _ l, fun l => dedupBy_idem _ l,
    fun l => dedupBy_idem _ l⟩

/-- Claim C4: the strptime model of `parse_date` succeeds exactly on
inputs matching the `"%A, %B %d, %Y"` grammar (after stripping), and then
returns the zero-padded ISO rendering of the very year, month and day the
grammar parsed; the root script's `parse_long_date` is the same function;
and in the extraction loop a candidate whose matched date text fails to
parse is discarded alone, leaving the rest of the run unchanged. -/
theorem C4_parse_date :
    (∀ s iso : String, parse_date s = some iso ↔
        ∃ y m d, LongDateGrammar s y m d ∧ iso = isoStr y m d) ∧
    (∀ s : String, parse_long_date s = parse_date s) ∧
    (∀ (a : Anchor) (block : String) (dm : List Char) (anchors : List Anchor),
      a.parent = some block → findLongDate block.data = some dm →
      parse_long_date (String.mk dm) = none →
      Root.processAnchor a = none ∧
        Root.extractEvents (a :: anchors) = Root.extractEvents anchors) := by
  refine ⟨parse_date_iff, fun s => rfl, fun a block dm anchors h1 h2 h3 => ?_⟩
  have hnone := Root_processAnchor_date_fail h1 h2 h3
  exact ⟨hnone, extractEvents_skip hnone anchors⟩

def c4BadAnchor : Anchor :=
  { text := "Some Event", href := "/events/x",
    parent := some "Tuesday, February 30, 2026" }

/-- Claim C4 (witness): "Tuesday, February 17, 2026" parses and matches
the grammar; an anchor whose block date is the non-existent February 30
is discarded without aborting the run. -/
theorem C4_witness :
    (∃ y m d, LongDateGrammar "Tuesday, February 17, 2026" y m d ∧
        "2026-02-17" = isoStr y m d) ∧
    (Root.processAnchor c4BadAnchor = none ∧
      Root.extractEvents [c4BadAnchor] = Root.extractEvents []) :=
  ⟨(C4_parse_date.1 "Tuesday, February 17, 2026" "2026-02-17").mp (by decide),
    C4_parse_date.2.2 c4BadAnchor "Tuesday, February 30, 2026"
      ("Tuesday, February 30, 2026".data) [] rfl (by decide) (by decide)⟩

def c8Anchor : Anchor :=
  { text := "Madrone Drink & Draw", href := "/events/madrone-jan",
    parent := some "Madrone Drink & Draw\nTuesday, February 17, 2026\n6:30 PM 8:30 PM" }

def c8Record : Row :=
  { date := "2026-02-17", venue := "Sketchboard @ Madrone Art Bar",
    title := "Madrone Drink & Draw", category := "Drink & Draw", event_type := "",
    start_time := "6:30PM", end_time := "8:30PM",
    price_text := "$15 CASH ONLY @ the door (per Sketchboard schedule)",
    is_museum := "no", museum_name := "",
    event_url := "https://www.sketchboard.co/events/madrone-jan",
    notes := "Auto-imported from sketchboard.co/schedule" }

/-- Claim C8: every record either extraction pipeline emits has
is_museum "no", empty museum_name, empty event_type, and the fixed
provenance string as notes, whatever the anchor list the HTML parser
yields. -/
theorem C8_constant_fields :
    (∀ (anchors : List Anchor) (r : Row), r ∈ Root.mainEvents anchors →
      r.is_museum = "no" ∧ r.museum_name = "" ∧ r.event_type = "" ∧
        r.notes = marker) ∧
    (∀ (anchors : List Anchor) (r : Row), r ∈ Scripts.mainEvents anchors →
      r.is_museum = "no" ∧ r.museum_name = "" ∧ r.event_type = "" ∧
        r.notes = marker) := by
  constructor
  · intro anchors r h
    obtain ⟨a, ha⟩ := Root_mainEvents_mem h
    exact Root_processAnchor_fields ha
  · intro anchors r h
    obtain ⟨a, ha⟩ := Scripts_mainEvents_mem h
    exact Scripts_processAnchor_fields ha

/-- Claim C8 (witness): the record produced end-to-end from a concrete
Madrone anchor has the four constant fields. -/
theorem C8_witness :
    c8Record.is_museum = "no" ∧ c8Record.museum_name = "" ∧
      c8Record.event_type = "" ∧ c8Record.notes = marker :=
  C8_constant_fields.1 [c8Anchor] c8Record (by decide)

/-- Claim C9: the root extractor's site-domain filter accepts exactly
when "sketchboard.co" occurs as a substring anywhere in the resolved
URL; every non-empty href not starting with "http" (site-relative) is
accepted because `abs_url` prefixes the sketchboard host; an absolute
URL on a foreign host is accepted when "sketchboard.co" occurs in its
path; and an anchor rejected by the filter yields no record. -/
theorem C9_domain_filter :
    (∀ raw : String, substrB "sketchboard.co" (abs_url raw) = true ↔
        ("sketchboard.co" : String).data <:+: (abs_url raw).data) ∧
    (∀ raw : String, stripL raw.data ≠ [] →
        ("http" : String).data.isPrefixOf (stripL raw.data) = false →
        substrB "sketchboard.co" (abs_url raw) = true) ∧
    substrB "sketchboard.co"
      (abs_url "http://foreign.example/files/sketchboard.co/page") = true ∧
    (∀ a : Anchor, substrB "sketchboard.co" (abs_url a.href) = false →
        Root.processAnchor a = none) := by
  refine ⟨fun raw => substrB_iff _ _, fun raw hne hhttp => ?_, by decide,
    fun a h => Root_processAnchor_skip_of_filter h⟩
  simp only [abs_url]
  have hne' : pyStrip raw ≠ "" := by
    intro hcon
    apply hne
    have hdata := congrArg String.data hcon
    simpa [pyStrip] using hdata
  rw [if_neg hne']
  have hhttp' : ¬ (startsWithB "http" (pyStrip raw) = true) := by
    have hb : startsWithB "http" (pyStrip raw) = false := hhttp
    rw [hb]
    decide
  rw [if_neg hhttp']
  by_cases hs : startsWithB "/" (pyStrip raw) = true
  · rw [if_pos hs]
    exact substr_host_slash _
  · rw [if_neg hs]
    exact substr_host_root _

/-- Claim C9 (witness): a site-relative href is accepted by the domain
filter. -/
theorem C9_witness :
    substrB "sketchboard.co" (abs_url "/events/x") = true :=
  C9_domain_filter.2.1 "/events/x" (by decide) (by decide)

/-- Claim C10: `parse_time_range` performs no numeric range validation:
on "19:99 PM 20:00 PM" it returns ("19:99PM", "20:00PM"), and whenever
the whitespace-normalised input contains two whitespace-separated tokens
of the shape digits-colon-digits with an AM/PM marker — with no
constraint that they be valid clock times — it returns a pair of such
tokens normalised (upper-cased, spaces removed). -/
theorem C10_no_range_validation :
    parse_time_range "19:99 PM 20:00 PM" = ("19:99PM", "20:00PM") ∧
    (∀ s : String, ContainsTimePair s →
      ∃ t1 t2, TimeTokShape t1 ∧ TimeTokShape t2 ∧
        parse_time_range s = (String.mk (normTokL t1), String.mk (normTokL t2))) :=
  ⟨by decide, fun _ h => parse_time_range_of_pair h⟩

/-- Claim C10 (witness): the out-of-range input "19:99 PM 20:00 PM"
contains two syntactic time tokens and is normalised accordingly. -/
theorem C10_witness :
    ∃ t1 t2, TimeTokShape t1 ∧ TimeTokShape t2 ∧
      parse_time_range "19:99 PM 20:00 PM"
        = (String.mk (normTokL t1), String.mk (normTokL t2)) :=
  C10_no_range_validation.2 "19:99 PM 20:00 PM"
    ⟨[], ['1','9',':','9','9',' ','P','M'], [' '],
     ['2','0',':','0','0',' ','P','M'], [], by decide,
     ⟨['1','9'], '9', '9', [' '], 'P', 'M', by decide,
      by unfold DigitRun; decide, by decide, by decide, by decide, by decide,
      by unfold WsRun; decide, by decide, by decide⟩,
     by unfold WsRun; decide, by decide,
     ⟨['2','0'], '0', '0', [' '], 'P', 'M', by decide,
      by unfold DigitRun; decide, by decide, by decide, by decide, by decide,
      by unfold WsRun; decide, by decide, by decide⟩⟩
